import Mathlib

/-!
Verification of the Floppa-jukebox analysis engine against its specification.

Floats are modelled as rationals (`ℚ`); Python lists as `List ℚ`.  The
definitions below are shallow embeddings of the Python functions in
`src/engine3/fj_analysis_engine/analysis.py`, `src/engine/app/progress.py`,
`src/engine/app/time_utils.py` and `src/engine/app/io_utils.py`.
-/

namespace Floppa

/-- A time quantum `{start, duration, confidence?}` as emitted by
`_make_quanta` in `analysis.py`. -/
structure Quantum where
  start : ℚ
  duration : ℚ
  confidence : Option ℚ
deriving Repr, DecidableEq

/-- Loop body of `_make_quanta` (analysis.py lines 43-54), translated from the
index-based Python `for` loop to structural recursion: each start is paired
with the following start (or the track `duration` for the last one), the
quantum duration is `max 0 (end - start)`, and when `hasConf` is set the head
of the confidence list is attached (the Python indexes `confidence[i]`, which
walks the list in step with `starts`). -/
def makeQuantaGo (duration : ℚ) (hasConf : Bool) : List ℚ → List ℚ → List Quantum
  | [], _ => []
  | s :: rest, cs =>
      let e : ℚ := match rest with | [] => duration | s2 :: _ => s2
      { start := s
        duration := max 0 (e - s)
        confidence := if hasConf then some (cs.headD 0) else none } ::
        makeQuantaGo duration hasConf rest cs.tail

/-- `_make_quanta(starts, duration, confidence)` from analysis.py.  The Python
guard `if confidence:` is falsy both for `None` and for an empty list, so a
confidence value is attached only when a non-empty confidence list is given. -/
def makeQuanta (starts : List ℚ) (duration : ℚ) (confidence : Option (List ℚ)) :
    List Quantum :=
  match confidence with
  | some cs => if cs.isEmpty then makeQuantaGo duration false starts []
               else makeQuantaGo duration true starts cs
  | none => makeQuantaGo duration false starts []

/-- Sum of the `duration` fields of a quantum list. -/
def sumDur (qs : List Quantum) : ℚ :=
  (qs.map Quantum.duration).sum

/-- `np.min` over a non-empty array (0 for the empty list, which the callers
rule out). -/
def listMin : List ℚ → ℚ
  | [] => 0
  | x :: xs => xs.foldl min x

/-- `np.max` over a non-empty array (0 for the empty list, which the callers
rule out). -/
def listMax : List ℚ → ℚ
  | [] => 0
  | x :: xs => xs.foldl max x

/-- `np.searchsorted(frame_times, start, side="left")`: for a sorted array this
is the number of elements strictly below the probe. -/
def searchsortedLeft (xs : List ℚ) (v : ℚ) : ℕ :=
  xs.countP (fun x => decide (x < v))

/-- `_segment_confidence(novelty, frame_times, start)` from analysis.py
lines 32-40: min-max normalized novelty at the frame nearest the segment
start, defaulting to 0.5 on an empty novelty curve or a flat one
(dynamic range below `1e-6`). -/
def segmentConfidence (novelty frame_times : List ℚ) (start : ℚ) : ℚ :=
  if novelty = [] then 1 / 2
  else if listMax novelty - listMin novelty < 1 / 1000000 then 1 / 2
  else
    (novelty.getD (min (max (searchsortedLeft frame_times start) 0)
        (novelty.length - 1)) 0 - listMin novelty) /
      (listMax novelty - listMin novelty)

/-- A calibration quantile map for a scalar field: the `source`/`target`
quantile arrays of the Python dict (a missing key defaults to `[]`, exactly as
`mapping.get("source", [])` does). -/
structure QuantileMap where
  source : List ℚ
  target : List ℚ
deriving Repr, DecidableEq

/-- `np.interp(x, xp, fp)` on the zipped point list, for increasing `xp`:
clamps to the first/last `fp` value outside the range and interpolates
linearly inside. -/
def interpQ (x : ℚ) : List (ℚ × ℚ) → ℚ
  | [] => 0
  | [(_, f0)] => f0
  | (x0, f0) :: (x1, f1) :: rest =>
      if x ≤ x0 then f0
      else if x ≤ x1 then f0 + (f1 - f0) * (x - x0) / (x1 - x0)
      else interpQ x ((x1, f1) :: rest)

/-- `_apply_confidence_mapping(values, mapping)` from analysis.py lines 18-23:
pass-through when either quantile array is empty, otherwise `np.interp`. -/
def applyConfidenceMapping (values : List ℚ) (m : QuantileMap) : List ℚ :=
  if m.source = [] ∨ m.target = [] then values
  else values.map (fun v => interpQ v (m.source.zip m.target))

/-- The consecutive beat gaps `beat_times[i+1] - beat_times[i]` of the tempo
loop in analysis.py lines 167-171. -/
def consecutiveGaps (bt : List ℚ) : List ℚ :=
  bt.zipWith (fun a b => b - a) bt.tail

/-- The collected `60 / dt` values: the loop appends only when `dt > 0`. -/
def tempoList (bt : List ℚ) : List ℚ :=
  (consecutiveGaps bt).filterMap (fun dt => if 0 < dt then some (60 / dt) else none)

/-- Insertion step of a sorting routine standing in for `np.median`'s sort. -/
def insortQ (x : ℚ) : List ℚ → List ℚ
  | [] => [x]
  | y :: ys => if x ≤ y then x :: y :: ys else y :: insortQ x ys

/-- Sorting a rational list (insertion sort). -/
def sortQ (l : List ℚ) : List ℚ :=
  l.foldr insortQ []

/-- `np.median`: middle element of the sorted list for odd length, mean of the
two middle elements for even length (0 for the empty list, which the caller
rules out). -/
def medianQ (l : List ℚ) : ℚ :=
  if l.length = 0 then 0
  else if l.length % 2 = 1 then (sortQ l).getD (l.length / 2) 0
  else ((sortQ l).getD (l.length / 2 - 1) 0 + (sortQ l).getD (l.length / 2) 0) / 2

/-- The track tempo of analysis.py lines 167-172: median of the collected
`60 / dt` values, or 0 when none were collected. -/
def tempoOf (bt : List ℚ) : ℚ :=
  if tempoList bt = [] then 0 else medianQ (tempoList bt)

/-- analysis.py lines 69-72: when `extract_beats` returns an empty beat list,
fall back to a single beat at time 0.0 with beat number 1 (`if not beat_times`
is the empty-list test). -/
def fallbackBeats (bt : List ℚ) (bn : List ℤ) : List ℚ × List ℤ :=
  if bt = [] then ([0], [1]) else (bt, bn)

/-- analysis.py line 151: the beat times whose beat-within-bar number is 1. -/
def downbeatStarts (bt : List ℚ) (bn : List ℤ) : List ℚ :=
  (bt.zip bn).filterMap (fun p => if p.2 = 1 then some p.1 else none)

/-- analysis.py lines 151-153: bar starts are the downbeats, or the first beat
when no beat carries number 1 (`beat_times[0]`, total here via `headD`; the
callers guarantee a non-empty beat list). -/
def barStartsOf (bt : List ℚ) (bn : List ℤ) : List ℚ :=
  if downbeatStarts bt bn = [] then [bt.headD 0] else downbeatStarts bt bn

/-- analysis.py lines 157-162: for each beat, `tatums_per_beat` evenly spaced
start times inside the beat interval (the last interval ends at the track
duration; the interval length is clamped at 0). -/
def tatumGen (duration : ℚ) (tpb : ℕ) : List ℚ → List ℚ
  | [] => []
  | beat :: rest =>
      ((List.range tpb).map (fun t : ℕ =>
          beat + max 0 ((match rest with | [] => duration | b2 :: _ => b2) - beat)
            * (t : ℚ) / (tpb : ℚ))) ++ tatumGen duration tpb rest

/-- analysis.py line 163: `sorted(set(tatum_starts))`. -/
def tatumStartsOf (bt : List ℚ) (duration : ℚ) (tpb : ℕ) : List ℚ :=
  sortQ (tatumGen duration tpb bt).dedup

/-- The pitch entry of the calibration document: the three forms the spec
names (matrix-affine, per-bin scale/bias, power law).  A missing key is
`none`.  The source passes the exponent to `np.power` as a float; the integer
exponents exercised here are modelled exactly by `zpow`. -/
structure PitchMap where
  matrix : Option (List (List ℚ) × List ℚ)
  scaleBias : Option (List ℚ × List ℚ)
  power : Option ℤ
deriving Repr, DecidableEq

/-- analysis.py lines 143-146 with `_apply_pitch_power` (lines 26-29): the
code consults only the `"power"` key of the pitch calibration entry — when it
is present each pitch value is raised to that power, otherwise the vector
passes through.  The matrix and scale/bias fields are never read. -/
def applyPitchCalibration (pm : PitchMap) (x : List ℚ) : List ℚ :=
  match pm.power with
  | some p => x.map (fun v => v ^ p)
  | none => x

/-- `y = xA + b` for a row vector `x`: component `j` is
`Σ_i x_i * A_i_j + b_j`. -/
def matVecAffine (A : List (List ℚ)) (b : List ℚ) (x : List ℚ) : List ℚ :=
  (List.range b.length).map (fun j =>
    (List.zipWith (fun xi row => xi * row.getD j 0) x A).sum + b.getD j 0)

/-- Modelled from the spec: "Pitch: precedence matrix-affine > per-bin
scale/bias > power-law (`y = x^p`); first populated form wins."  This is the
behaviour the claim asserts, stated for comparison with the code's
`applyPitchCalibration`. -/
def applyPitchPrecedence (pm : PitchMap) (x : List ℚ) : List ℚ :=
  match pm.matrix with
  | some (a, b) => matVecAffine a b x
  | none =>
      match pm.scaleBias with
      | some (s, b) => (x.zipWith (· * ·) s).zipWith (· + ·) b
      | none =>
          match pm.power with
          | some p => x.map (fun v => v ^ p)
          | none => x

/-- The timbre entry of the calibration document; analysis.py lines 131-132
default a missing `"a"` to `[1.0]*12` and a missing `"b"` to `[0.0]*12`. -/
structure TimbreMap where
  a : Option (List ℚ)
  b : Option (List ℚ)
deriving Repr, DecidableEq

/-- The loudness entry: scalar scale/bias, defaulting to `a = 1`, `b = 0`. -/
structure LoudMap where
  a : Option ℚ
  b : Option ℚ
deriving Repr, DecidableEq

/-- The calibration document as read by analyze_audio lines 124-128: one
optional entry per field (an absent or empty dict entry is `none`). -/
structure Calibration where
  timbre : Option TimbreMap
  loudness : Option LoudMap
  confidence : Option QuantileMap
  pitch : Option PitchMap
deriving Repr, DecidableEq

/-- `values * a + b` elementwise (`_apply_affine`, analysis.py lines 14-15);
numpy broadcasting over equal-length arrays, embedded as `zipWith`. -/
def applyAffineVec (values a b : List ℚ) : List ℚ :=
  (values.zipWith (· * ·) a).zipWith (· + ·) b

/-- One segment of the analysis document (analysis.py lines 112-121). -/
structure Segment where
  start : ℚ
  duration : ℚ
  confidence : ℚ
  loudness_start : ℚ
  loudness_max : ℚ
  loudness_max_time : ℚ
  pitches : List ℚ
  timbre : List ℚ
deriving Repr, DecidableEq

/-- Timbre step of the per-segment calibration loop (lines 130-133). -/
def calTimbre (cal : Calibration) (seg : Segment) : Segment :=
  match cal.timbre with
  | some tm =>
      { seg with timbre := (applyAffineVec seg.timbre
          (tm.a.getD (List.replicate 12 1)) (tm.b.getD (List.replicate 12 0))) }
  | none => seg

/-- Loudness step (lines 134-138). -/
def calLoud (cal : Calibration) (seg : Segment) : Segment :=
  match cal.loudness with
  | some lm =>
      { seg with
          loudness_start := seg.loudness_start * lm.a.getD 1 + lm.b.getD 0
          loudness_max := seg.loudness_max * lm.a.getD 1 + lm.b.getD 0 }
  | none => seg

/-- Confidence step (lines 139-142): the scalar is wrapped in a one-element
array, mapped, and the first element taken back out. -/
def calConf (cal : Calibration) (seg : Segment) : Segment :=
  match cal.confidence with
  | some cm =>
      { seg with confidence := (applyConfidenceMapping [seg.confidence] cm).headD 0 }
  | none => seg

/-- Pitch step (lines 143-146). -/
def calPitch (cal : Calibration) (seg : Segment) : Segment :=
  match cal.pitch with
  | some pm => { seg with pitches := applyPitchCalibration pm seg.pitches }
  | none => seg

/-- The whole per-segment calibration pass, in the source's order
timbre → loudness → confidence → pitch. -/
def calibrateSegment (cal : Calibration) (seg : Segment) : Segment :=
  calPitch cal (calConf cal (calLoud cal (calTimbre cal seg)))

/-- The calibration loop over all segments (`for seg in segments`), a no-op
when no calibration document was supplied. -/
def calibrateSegments (cal : Option Calibration) (segs : List Segment) :
    List Segment :=
  match cal with
  | none => segs
  | some c => segs.map (calibrateSegment c)

/-- The `ProgressReporter` dataclass of src/engine/app/progress.py: whether a
callback was supplied, and `last_progress` (initially `-1`). -/
structure ProgressReporter where
  hasCallback : Bool
  last_progress : ℤ
deriving Repr, DecidableEq

/-- A fresh reporter (`last_progress = -1`). -/
def initReporter (hasCb : Bool) : ProgressReporter :=
  ⟨hasCb, -1⟩

/-- The characters of the Python prefix `"beats_wait"` (stage labels are
modelled as character lists so that prefix tests compute). -/
def beatsWaitChars : List Char :=
  ['b', 'e', 'a', 't', 's', '_', 'w', 'a', 'i', 't']

/-- `ProgressReporter.report` (progress.py lines 18-25): returns the updated
reporter and the `(percent, stage)` event delivered to the callback, if any.
The percent is clamped up to `last_progress`; a clamped update whose stage
starts with `"beats_wait"` (`stage.startswith`, modelled as a character-list
prefix test) and whose percent did not move is dropped. -/
def report (r : ProgressReporter) (percent : ℤ) (stage : List Char) :
    ProgressReporter × Option (ℤ × List Char) :=
  if r.hasCallback = false then (r, none)
  else if max r.last_progress percent = r.last_progress ∧
      beatsWaitChars.isPrefixOf stage = true then (r, none)
  else ({ r with last_progress := max r.last_progress percent },
    some (max r.last_progress percent, stage))

/-- Replay a sequence of `report` calls, collecting the delivered events. -/
def runReporter (r : ProgressReporter) :
    List (ℤ × List Char) → List (ℤ × List Char)
  | [] => []
  | (p, s) :: rest =>
      (report r p s).2.toList ++ runReporter (report r p s).1 rest

/-- `frame_slice(time_start, time_end, sr, hop_length)` from
src/engine/app/time_utils.py lines 11-14. -/
def frame_slice (time_start time_end : ℚ) (sr hop_length : ℤ) : ℤ × ℤ :=
  (max 0 ⌊time_start * sr / hop_length⌋,
    max (⌊time_start * sr / hop_length⌋ + 1) ⌈time_end * sr / hop_length⌉)

/-- A JSON-like Python value as passed to `_sanitize_small_values`
(src/engine/app/io_utils.py): floats (as `ℚ`), ints, strings, booleans,
`None`, lists and dicts.  Strings and dict keys are character lists. -/
inductive JVal where
  | num (q : ℚ)
  | int (n : ℤ)
  | str (s : List Char)
  | bool (b : Bool)
  | null
  | arr (items : List JVal)
  | obj (fields : List (List Char × JVal))

/-- The characters of the key `"pitches"`. -/
def pitchesKey : List Char := ['p', 'i', 't', 'c', 'h', 'e', 's']

/-- The characters of the key `"timbre"`. -/
def timbreKey : List Char := ['t', 'i', 'm', 'b', 'r', 'e']

mutual

/-- `_sanitize_small_values(obj, parent_key, threshold=1e-4)` from
io_utils.py lines 18-27: a float is zeroed when the parent key is not
`"pitches"`/`"timbre"` and its absolute value is below the threshold; lists
recurse with the same parent key, dicts recurse with each entry's own key;
all other leaves pass through. -/
def sanitizeJ (parent : Option (List Char)) : JVal → JVal
  | .num q =>
      if ¬(parent = some pitchesKey ∨ parent = some timbreKey) ∧ |q| < 1 / 10000
      then .num 0 else .num q
  | .arr items => .arr (sanitizeListJ parent items)
  | .obj fields => .obj (sanitizeFieldsJ fields)
  | .int n => .int n
  | .str s => .str s
  | .bool b => .bool b
  | .null => .null

/-- The list comprehension of line 24 (the parent key propagates). -/
def sanitizeListJ (parent : Option (List Char)) : List JVal → List JVal
  | [] => []
  | v :: rest => sanitizeJ parent v :: sanitizeListJ parent rest

/-- The dict comprehension of line 26 (each value recurses under its own
key). -/
def sanitizeFieldsJ : List (List Char × JVal) → List (List Char × JVal)
  | [] => []
  | (k, v) :: rest => (k, sanitizeJ (some k) v) :: sanitizeFieldsJ rest

end

mutual

/-- Modelled from the spec reading of the claim: a float "lying under" a
`pitches`/`timbre` key — through any depth of lists and dicts — is exempt;
the `exempt` flag turns on at such a key and stays on below it. -/
def specSanitizeJ (exempt : Bool) : JVal → JVal
  | .num q => if exempt = false ∧ |q| < 1 / 10000 then .num 0 else .num q
  | .arr items => .arr (specSanitizeListJ exempt items)
  | .obj fields => .obj (specSanitizeFieldsJ exempt fields)
  | .int n => .int n
  | .str s => .str s
  | .bool b => .bool b
  | .null => .null

def specSanitizeListJ (exempt : Bool) : List JVal → List JVal
  | [] => []
  | v :: rest => specSanitizeJ exempt v :: specSanitizeListJ exempt rest

def specSanitizeFieldsJ (exempt : Bool) :
    List (List Char × JVal) → List (List Char × JVal)
  | [] => []
  | (k, v) :: rest =>
      (k, specSanitizeJ (exempt || decide (k = pitchesKey) || decide (k = timbreKey)) v) ::
        specSanitizeFieldsJ exempt rest

end

mutual

/-- Erase every float value (set it to 0), keeping everything else: two
documents agree under `eraseNumsJ` exactly when they have the same structure
and the same non-float leaves. -/
def eraseNumsJ : JVal → JVal
  | .num _ => .num 0
  | .arr items => .arr (eraseNumsListJ items)
  | .obj fields => .obj (eraseNumsFieldsJ fields)
  | .int n => .int n
  | .str s => .str s
  | .bool b => .bool b
  | .null => .null

def eraseNumsListJ : List JVal → List JVal
  | [] => []
  | v :: rest => eraseNumsJ v :: eraseNumsListJ rest

def eraseNumsFieldsJ : List (List Char × JVal) → List (List Char × JVal)
  | [] => []
  | (k, v) :: rest => (k, eraseNumsJ v) :: eraseNumsFieldsJ rest

end

mutual

/-- Flatten a document to its float leaves, each paired with the key of the
nearest enclosing dict entry (lists are transparent). -/
def floatsJ (parent : Option (List Char)) : JVal → List (Option (List Char) × ℚ)
  | .num q => [(parent, q)]
  | .arr items => floatsListJ parent items
  | .obj fields => floatsFieldsJ fields
  | .int _ => []
  | .str _ => []
  | .bool _ => []
  | .null => []

def floatsListJ (parent : Option (List Char)) :
    List JVal → List (Option (List Char) × ℚ)
  | [] => []
  | v :: rest => floatsJ parent v ++ floatsListJ parent rest

def floatsFieldsJ : List (List Char × JVal) → List (Option (List Char) × ℚ)
  | [] => []
  | (k, v) :: rest => floatsJ (some k) v ++ floatsFieldsJ rest

end

/-- The pointwise sanitization rule on a (nearest key, float) pair. -/
def sanitizeRule (parent : Option (List Char)) (q : ℚ) :
    Option (List Char) × ℚ :=
  if ¬(parent = some pitchesKey ∨ parent = some timbreKey) ∧ |q| < 1 / 10000
  then (parent, 0) else (parent, q)

/-- Telescoping: on a sorted start list bounded by the track duration, the
quantum durations built by the `_make_quanta` loop sum to
`duration - first start`. -/
theorem sumDur_makeQuantaGo (duration : ℚ) (hc : Bool) (s : ℚ) (rest cs : List ℚ)
    (hchain : List.Chain' (· ≤ ·) (s :: rest))
    (hbound : ∀ x ∈ s :: rest, x ≤ duration) :
    sumDur (makeQuantaGo duration hc (s :: rest) cs) = duration - s := by
  induction rest generalizing s cs with
  | nil =>
      have hs : s ≤ duration := hbound s (by simp)
      simp [makeQuantaGo, sumDur, max_eq_right (by linarith : (0:ℚ) ≤ duration - s)]
  | cons s2 rest ih =>
      have h12 : s ≤ s2 := (List.chain'_cons.mp hchain).1
      have hchain2 : List.Chain' (· ≤ ·) (s2 :: rest) := (List.chain'_cons.mp hchain).2
      have hbound2 : ∀ x ∈ s2 :: rest, x ≤ duration := by
        intro x hx; exact hbound x (List.mem_cons_of_mem _ hx)
      have := ih s2 cs.tail hchain2 hbound2
      simp only [makeQuantaGo, sumDur, List.map_cons, List.sum_cons] at this ⊢
      rw [this, max_eq_right (by linarith : (0:ℚ) ≤ s2 - s)]
      ring

/-- Same telescoping fact for `_make_quanta` itself. -/
theorem sumDur_makeQuanta (starts : List ℚ) (duration : ℚ) (conf : Option (List ℚ))
    (s : ℚ) (rest : List ℚ) (hs : starts = s :: rest)
    (hchain : List.Chain' (· ≤ ·) starts)
    (hbound : ∀ x ∈ starts, x ≤ duration) :
    sumDur (makeQuanta starts duration conf) = duration - s := by
  subst hs
  cases conf with
  | none => exact sumDur_makeQuantaGo duration false s rest [] hchain hbound
  | some cs =>
      by_cases hcs : cs.isEmpty <;>
        simp [makeQuanta, hcs, sumDur_makeQuantaGo duration _ s rest _ hchain hbound]

/-- C1 (counterexample): the coverage claim fails as stated.  The beat tracker
may return a first beat later than `t = 0` (analysis.py builds the beats level
directly from the tracker's times); with a single beat at `t = 1` on a 2-second
track, `_make_quanta` emits one quantum of duration 1, which misses the track
duration 2 by far more than `1e-3`. -/
theorem C1_coverage_cex :
    sumDur (makeQuanta [1] 2 (some [1])) = 1 ∧
      ¬ |sumDur (makeQuanta [1] 2 (some [1])) - 2| ≤ 1 / 1000 := by
  constructor
  · norm_num [makeQuanta, makeQuantaGo, sumDur]
  · norm_num [makeQuanta, makeQuantaGo, sumDur, abs_le]

/-- C1 (amended): for a sorted start list bounded by the track duration, the
quanta built by `_make_quanta` sum to `duration - first start`; whenever the
first start is 0 (as for the sections level, always `[0.0]`, and the fallback
beat grid) the durations sum to the track duration exactly, hence within
`1e-3`. -/
theorem C1_coverage (starts : List ℚ) (duration : ℚ) (conf : Option (List ℚ))
    (s : ℚ) (rest : List ℚ) (hs : starts = s :: rest)
    (hchain : List.Chain' (· ≤ ·) starts)
    (hbound : ∀ x ∈ starts, x ≤ duration) :
    sumDur (makeQuanta starts duration conf) = duration - s ∧
      (s = 0 → |sumDur (makeQuanta starts duration conf) - duration| ≤ 1 / 1000) := by
  refine ⟨sumDur_makeQuanta starts duration conf s rest hs hchain hbound, ?_⟩
  intro h0
  rw [sumDur_makeQuanta starts duration conf s rest hs hchain hbound, h0]
  simp

/-- C1 witness: concrete sorted start list `[0, 1]` on a 2-second track. -/
theorem C1_coverage_witness :
    sumDur (makeQuanta [0, 1] 2 none) = 2 - 0 ∧
      ((0:ℚ) = 0 → |sumDur (makeQuanta [0, 1] 2 none) - 2| ≤ 1 / 1000) :=
  C1_coverage [0, 1] 2 none 0 [1] rfl
    (by simp [List.chain'_cons])
    (by intro x hx; simp at hx; rcases hx with rfl | rfl <;> norm_num)

theorem foldl_min_le_init (l : List ℚ) (a : ℚ) : l.foldl min a ≤ a := by
  induction l generalizing a with
  | nil => simp
  | cons y ys ih =>
      simp only [List.foldl_cons]
      exact le_trans (ih (min a y)) (min_le_left _ _)

theorem foldl_min_le (l : List ℚ) (a x : ℚ) (hx : x ∈ l) : l.foldl min a ≤ x := by
  induction l generalizing a with
  | nil => simp at hx
  | cons y ys ih =>
      simp only [List.foldl_cons]
      rcases List.mem_cons.mp hx with rfl | hx'
      · exact le_trans (foldl_min_le_init ys (min a x)) (min_le_right _ _)
      · exact ih (min a y) hx'

theorem le_foldl_max_init (l : List ℚ) (a : ℚ) : a ≤ l.foldl max a := by
  induction l generalizing a with
  | nil => simp
  | cons y ys ih =>
      simp only [List.foldl_cons]
      exact le_trans (le_max_left _ _) (ih (max a y))

theorem le_foldl_max (l : List ℚ) (a x : ℚ) (hx : x ∈ l) : x ≤ l.foldl max a := by
  induction l generalizing a with
  | nil => simp at hx
  | cons y ys ih =>
      simp only [List.foldl_cons]
      rcases List.mem_cons.mp hx with rfl | hx'
      · exact le_trans (le_max_right _ _) (le_foldl_max_init ys (max a x))
      · exact ih (max a y) hx'

theorem listMin_le {l : List ℚ} {x : ℚ} (hx : x ∈ l) : listMin l ≤ x := by
  cases l with
  | nil => simp at hx
  | cons y ys =>
      rcases List.mem_cons.mp hx with rfl | hx'
      · exact foldl_min_le_init ys x
      · exact foldl_min_le ys y x hx'

theorem le_listMax {l : List ℚ} {x : ℚ} (hx : x ∈ l) : x ≤ listMax l := by
  cases l with
  | nil => simp at hx
  | cons y ys =>
      rcases List.mem_cons.mp hx with rfl | hx'
      · exact le_foldl_max_init ys x
      · exact le_foldl_max ys y x hx'

theorem getD_mem {l : List ℚ} {i : ℕ} (h : i < l.length) (d : ℚ) :
    l.getD i d ∈ l := by
  induction l generalizing i with
  | nil => simp at h
  | cons x xs ih =>
      cases i with
      | zero => simp
      | succ n =>
          simp only [List.getD_cons_succ]
          exact List.mem_cons_of_mem _ (ih (by simpa using h) )

theorem segmentConfidence_mem_unit (n t : List ℚ) (s : ℚ) :
    0 ≤ segmentConfidence n t s ∧ segmentConfidence n t s ≤ 1 := by
  unfold segmentConfidence
  by_cases hn : n = []
  · rw [if_pos hn]; norm_num
  · rw [if_neg hn]
    by_cases hflat : listMax n - listMin n < 1 / 1000000
    · rw [if_pos hflat]; norm_num
    · rw [if_neg hflat]
      have hpos : 0 < listMax n - listMin n := by
        have := not_lt.mp hflat; linarith
      have hlen : min (max (searchsortedLeft t s) 0) (n.length - 1) < n.length := by
        have h0 : n.length ≠ 0 := by
          simpa [List.length_eq_zero] using hn
        have h1 : min (max (searchsortedLeft t s) 0) (n.length - 1) ≤ n.length - 1 :=
          min_le_right _ _
        omega
      have hmem : n.getD (min (max (searchsortedLeft t s) 0) (n.length - 1)) 0 ∈ n :=
        getD_mem hlen 0
      refine ⟨div_nonneg (by linarith [listMin_le hmem]) (le_of_lt hpos), ?_⟩
      rw [div_le_one hpos]
      linarith [le_listMax hmem]

/-- Confidence values carried by `_make_quanta` quanta all come from the given
confidence list (or are the `headD` default 0): if every supplied confidence
is in `[0, 1]`, so is every emitted one. -/
theorem makeQuantaGo_confidence_mem_unit (duration : ℚ) (hc : Bool)
    (starts cs : List ℚ) (hcs : ∀ c ∈ cs, 0 ≤ c ∧ c ≤ 1) :
    ∀ q ∈ makeQuantaGo duration hc starts cs, ∀ c, q.confidence = some c →
      0 ≤ c ∧ c ≤ 1 := by
  induction starts generalizing cs with
  | nil => intro q hq; simp [makeQuantaGo] at hq
  | cons s rest ih =>
      intro q hq c hqc
      rcases List.mem_cons.mp hq with rfl | hq'
      · simp only at hqc
        cases hc with
        | false => simp at hqc
        | true =>
            simp only [if_pos] at hqc
            have : c = cs.headD 0 := by simpa using hqc.symm
            subst this
            cases cs with
            | nil => norm_num
            | cons c0 cs' => exact hcs c0 (by simp)
      · have htail : ∀ c ∈ cs.tail, 0 ≤ c ∧ c ≤ 1 := by
          intro c hcmem
          exact hcs c (List.mem_of_mem_tail hcmem)
        exact ih cs.tail htail q hq' c hqc

/-- C2 (counterexample): the reachable segment confidence 1 (novelty curve
`[0, 1]`, frame times `[0, 1]`, segment start 1) is mapped by the calibration
quantile map `source = [0, 1]`, `target = [0, 2]` to the value 2, which lies
outside `[0, 1]`. -/
theorem C2_confidence_unit_cex :
    segmentConfidence [0, 1] [0, 1] 1 = 1 ∧
      applyConfidenceMapping [1] ⟨[0, 1], [0, 2]⟩ = [2] ∧ ¬ ((2 : ℚ) ≤ 1) := by
  refine ⟨?_, ?_, by norm_num⟩
  · norm_num [segmentConfidence, searchsortedLeft, listMin, listMax]
    simp
  · norm_num [applyConfidenceMapping, interpQ]
    simp

/-- C2 (amended): every confidence computed by `_segment_confidence` lies in
`[0, 1]`, and every confidence attached by `_make_quanta` from a supplied
confidence list whose entries lie in `[0, 1]` (as the constant `1.0` lists for
sections, bars, beats and tatums do) lies in `[0, 1]`; the quantile-mapped
segment confidence, however, is only bounded by the calibration target array
and can leave `[0, 1]`. -/
theorem C2_confidence_unit (n t : List ℚ) (s : ℚ) (duration : ℚ)
    (starts cs : List ℚ) (hcs : ∀ c ∈ cs, 0 ≤ c ∧ c ≤ 1) :
    (0 ≤ segmentConfidence n t s ∧ segmentConfidence n t s ≤ 1) ∧
      (∀ q ∈ makeQuanta starts duration (some cs), ∀ c, q.confidence = some c →
        0 ≤ c ∧ c ≤ 1) := by
  refine ⟨segmentConfidence_mem_unit n t s, ?_⟩
  intro q hq
  simp only [makeQuanta] at hq
  by_cases hempty : cs.isEmpty
  · rw [if_pos hempty] at hq
    exact makeQuantaGo_confidence_mem_unit duration false starts [] (by simp) q hq
  · rw [if_neg hempty] at hq
    exact makeQuantaGo_confidence_mem_unit duration true starts cs hcs q hq

/-- C2 witness: concrete run on novelty `[0, 1]`, start list `[0, 1]`,
constant confidence list `[1, 1]`. -/
theorem C2_confidence_unit_witness :
    ((0 ≤ segmentConfidence [0, 1] [0, 1] (1/2) ∧
        segmentConfidence [0, 1] [0, 1] (1/2) ≤ 1) ∧
      (∀ q ∈ makeQuanta [0, 1] 2 (some [1, 1]), ∀ c, q.confidence = some c →
        0 ≤ c ∧ c ≤ 1)) :=
  C2_confidence_unit [0, 1] [0, 1] (1/2) 2 [0, 1] [1, 1]
    (by intro c hc; simp at hc; rcases hc with rfl | rfl; all_goals norm_num)

theorem length_insortQ (x : ℚ) (l : List ℚ) :
    (insortQ x l).length = l.length + 1 := by
  induction l with
  | nil => rfl
  | cons y ys ih =>
      by_cases h : x ≤ y
      · simp [insortQ, h]
      · simp [insortQ, h, ih]

theorem mem_insortQ {x y : ℚ} {l : List ℚ} (h : y ∈ insortQ x l) :
    y = x ∨ y ∈ l := by
  induction l with
  | nil => simpa [insortQ] using h
  | cons z zs ih =>
      by_cases hxz : x ≤ z
      · simp only [insortQ, if_pos hxz] at h
        rcases List.mem_cons.mp h with rfl | h' <;> tauto
      · simp only [insortQ, if_neg hxz] at h
        rcases List.mem_cons.mp h with rfl | h'
        · tauto
        · rcases ih h' with rfl | h'' <;> tauto

theorem length_sortQ (l : List ℚ) : (sortQ l).length = l.length := by
  induction l with
  | nil => rfl
  | cons x xs ih =>
      show (insortQ x (sortQ xs)).length = xs.length + 1
      rw [length_insortQ, ih]

theorem mem_sortQ {y : ℚ} {l : List ℚ} (h : y ∈ sortQ l) : y ∈ l := by
  induction l with
  | nil => simp [sortQ] at h
  | cons x xs ih =>
      simp only [sortQ, List.foldr_cons] at h
      rcases mem_insortQ h with rfl | h'
      · simp
      · exact List.mem_cons_of_mem _ (ih h')

theorem medianQ_pos {l : List ℚ} (hne : l ≠ []) (hpos : ∀ x ∈ l, 0 < x) :
    0 < medianQ l := by
  have hlen : l.length ≠ 0 := by simpa [List.length_eq_zero] using hne
  have hslen : (sortQ l).length = l.length := length_sortQ l
  unfold medianQ
  rw [if_neg hlen]
  by_cases hodd : l.length % 2 = 1
  · rw [if_pos hodd]
    have hidx : l.length / 2 < (sortQ l).length := by omega
    exact hpos _ (mem_sortQ (getD_mem hidx 0))
  · rw [if_neg hodd]
    have h2 : 2 ≤ l.length := by omega
    have hidx1 : l.length / 2 - 1 < (sortQ l).length := by omega
    have hidx2 : l.length / 2 < (sortQ l).length := by omega
    have p1 := hpos _ (mem_sortQ (getD_mem hidx1 0))
    have p2 := hpos _ (mem_sortQ (getD_mem hidx2 0))
    linarith

theorem consecutiveGaps_pos {bt : List ℚ} (h : List.Chain' (· < ·) bt) :
    ∀ dt ∈ consecutiveGaps bt, 0 < dt := by
  induction bt with
  | nil => intro dt hdt; simp [consecutiveGaps] at hdt
  | cons a rest ih =>
      cases rest with
      | nil => intro dt hdt; simp [consecutiveGaps] at hdt
      | cons b rest' =>
          intro dt hdt
          simp only [consecutiveGaps, List.tail_cons, List.zipWith_cons_cons] at hdt
          rcases List.mem_cons.mp hdt with rfl | hdt'
          · have := (List.chain'_cons.mp h).1; linarith
          · exact ih (List.chain'_cons.mp h).2 dt hdt'

theorem filterMap_tempo_eq_map (l : List ℚ) (hpos : ∀ dt ∈ l, 0 < dt) :
    l.filterMap (fun dt => if 0 < dt then some (60 / dt) else none) =
      l.map (fun dt => 60 / dt) := by
  induction l with
  | nil => rfl
  | cons dt rest ih =>
      have h1 : 0 < dt := hpos dt (by simp)
      simp only [List.filterMap_cons, if_pos h1, List.map_cons]
      exact congrArg (List.cons _) (ih fun x hx => hpos x (List.mem_cons_of_mem _ hx))

theorem tempoList_of_chain {bt : List ℚ} (h : List.Chain' (· < ·) bt) :
    tempoList bt = (consecutiveGaps bt).map (fun dt => 60 / dt) :=
  filterMap_tempo_eq_map (consecutiveGaps bt) (consecutiveGaps_pos h)

/-- C3 (counterexample): with the two-element beat list `[0, 0]` (a duplicated
beat time) the loop collects no `60 / dt` value, so the tempo is 0 even though
there are two beats — refuting "equals 0 exactly when there are fewer than two
beats" (the code only divides on strictly positive gaps). -/
theorem C3_tempo_cex :
    tempoOf [0, 0] = 0 ∧ ([0, 0] : List ℚ).length = 2 := by
  constructor
  · simp [tempoOf, tempoList, consecutiveGaps]
  · rfl

/-- C3 (amended): the tempo is the median of `60 / dt` over the consecutive
gaps with `dt > 0` (0 when there is no positive gap); for strictly increasing
beat times this is the median over all consecutive gaps, and it is 0 exactly
when there are fewer than two beats. -/
theorem C3_tempo (bt : List ℚ) (h : List.Chain' (· < ·) bt) :
    tempoOf bt = medianQ ((consecutiveGaps bt).map (fun dt => 60 / dt)) ∧
      (tempoOf bt = 0 ↔ bt.length < 2) := by
  rcases bt with _ | ⟨a, _ | ⟨b, rest⟩⟩
  · refine ⟨?_, ?_⟩
    all_goals simp [tempoOf, tempoList, consecutiveGaps, medianQ]
  · refine ⟨?_, ?_⟩
    all_goals simp [tempoOf, tempoList, consecutiveGaps, medianQ]
  · have hmap := tempoList_of_chain h
    have hgaps : consecutiveGaps (a :: b :: rest) =
        (b - a) :: consecutiveGaps (b :: rest) := by
      simp [consecutiveGaps]
    have hne : tempoList (a :: b :: rest) ≠ [] := by
      rw [hmap, hgaps]; simp
    have hpos : ∀ x ∈ tempoList (a :: b :: rest), 0 < x := by
      rw [hmap]
      intro x hx
      rcases List.mem_map.mp hx with ⟨dt, hdt, rfl⟩
      have := consecutiveGaps_pos h dt hdt
      positivity
    have hmpos := medianQ_pos hne hpos
    constructor
    · unfold tempoOf
      rw [if_neg hne, hmap]
    · unfold tempoOf
      rw [if_neg hne]
      constructor
      · intro h0
        rw [h0] at hmpos
        exact absurd hmpos (lt_irrefl 0)
      · intro hlen
        exact absurd hlen (by simp only [List.length_cons]; omega)

/-- C3 witness: beats at 0 and 0.5 seconds. -/
theorem C3_tempo_witness :
    tempoOf [0, 1/2] =
        medianQ ((consecutiveGaps [0, 1/2]).map (fun dt => 60 / dt)) ∧
      (tempoOf [0, 1/2] = 0 ↔ ([0, 1/2] : List ℚ).length < 2) :=
  C3_tempo [0, 1/2] (by norm_num [List.chain'_pair])

theorem length_makeQuantaGo (duration : ℚ) (hc : Bool) :
    ∀ (starts cs : List ℚ),
      (makeQuantaGo duration hc starts cs).length = starts.length := by
  intro starts
  induction starts with
  | nil => intro cs; rfl
  | cons s rest ih =>
      intro cs
      simp only [makeQuantaGo, List.length_cons, ih]

theorem length_makeQuanta (starts : List ℚ) (duration : ℚ)
    (conf : Option (List ℚ)) :
    (makeQuanta starts duration conf).length = starts.length := by
  cases conf with
  | none => exact length_makeQuantaGo duration false starts []
  | some cs =>
      by_cases hcs : cs.isEmpty
      · simp only [makeQuanta, if_pos hcs]
        exact length_makeQuantaGo duration false starts []
      · simp only [makeQuanta, if_neg hcs]
        exact length_makeQuantaGo duration true starts cs

/-- C4: an empty tracker output is replaced by the single beat 0.0 with
number 1, and the beat list handed to every downstream quantization step
(beats, bars, tatums) is never empty: the beat quanta, bar start list and
tatum start list built from the fallback output are all non-empty (tatums
need at least one subdivision per beat, `tatums_per_beat ≥ 1`). -/
theorem C4_beat_fallback (duration : ℚ) (tpb : ℕ) (htpb : 1 ≤ tpb) :
    (∀ bn, fallbackBeats [] bn = ([0], [1])) ∧
      (∀ bt bn, (fallbackBeats bt bn).1 ≠ []) ∧
      (∀ bt bn conf, makeQuanta (fallbackBeats bt bn).1 duration conf ≠ []) ∧
      (∀ bt bn, barStartsOf (fallbackBeats bt bn).1 (fallbackBeats bt bn).2 ≠ []) ∧
      (∀ bt bn, tatumStartsOf (fallbackBeats bt bn).1 duration tpb ≠ []) := by
  have hne : ∀ bt bn, (fallbackBeats bt bn).1 ≠ [] := by
    intro bt bn
    unfold fallbackBeats
    by_cases hbt : bt = []
    · rw [if_pos hbt]; simp
    · rw [if_neg hbt]; exact hbt
  refine ⟨fun bn => by simp [fallbackBeats], hne, ?_, ?_, ?_⟩
  · intro bt bn conf hempty
    have := length_makeQuanta (fallbackBeats bt bn).1 duration conf
    rw [hempty] at this
    exact hne bt bn (List.length_eq_zero.mp this.symm)
  · intro bt bn
    unfold barStartsOf
    by_cases hdb : downbeatStarts (fallbackBeats bt bn).1 (fallbackBeats bt bn).2 = []
    · rw [if_pos hdb]; simp
    · rw [if_neg hdb]; exact hdb
  · intro bt bn
    rcases List.exists_cons_of_ne_nil (hne bt bn) with ⟨s, rest, hcons⟩
    have hgen : tatumGen duration tpb (fallbackBeats bt bn).1 ≠ [] := by
      rw [hcons]
      intro h
      have hlen := congrArg List.length h
      simp only [tatumGen, List.length_append, List.length_map, List.length_range,
        List.length_nil] at hlen
      omega
    have hdedup : (tatumGen duration tpb (fallbackBeats bt bn).1).dedup ≠ [] := by
      intro hd
      rcases List.exists_cons_of_ne_nil hgen with ⟨x, xs, hx⟩
      have : x ∈ (tatumGen duration tpb (fallbackBeats bt bn).1).dedup :=
        List.mem_dedup.mpr (by rw [hx]; simp)
      rw [hd] at this
      simp at this
    intro hts
    have := length_sortQ (tatumGen duration tpb (fallbackBeats bt bn).1).dedup
    rw [tatumStartsOf] at hts
    rw [hts] at this
    exact hdedup (List.length_eq_zero.mp this.symm)

/-- C4 witness: one subdivision per beat on a 10-second track. -/
theorem C4_beat_fallback_witness :
    (∀ bn, fallbackBeats [] bn = ([0], [1])) ∧
      (∀ bt bn, (fallbackBeats bt bn).1 ≠ []) ∧
      (∀ bt bn conf, makeQuanta (fallbackBeats bt bn).1 10 conf ≠ []) ∧
      (∀ bt bn, barStartsOf (fallbackBeats bt bn).1 (fallbackBeats bt bn).2 ≠ []) ∧
      (∀ bt bn, tatumStartsOf (fallbackBeats bt bn).1 10 1 ≠ []) :=
  C4_beat_fallback 10 1 (le_refl 1)

/-- C5 (counterexample): with both a matrix-affine form (`A = [[2]]`, `b =
[0]`) and a power form (`p = 2`) populated, the claim's precedence picks the
matrix and maps `[1/2]` to `[1]`, but the code applies the power law and
returns `[1/4]`. -/
theorem C5_pitch_precedence_cex :
    applyPitchCalibration ⟨some ([[2]], [0]), none, some 2⟩ [1/2] = [1/4] ∧
      applyPitchPrecedence ⟨some ([[2]], [0]), none, some 2⟩ [1/2] = [1] ∧
      ([1/4] : List ℚ) ≠ [1] := by
  refine ⟨?_, ?_, by norm_num⟩
  · norm_num [applyPitchCalibration]
  · norm_num [applyPitchPrecedence, matVecAffine, List.range_succ]

/-- C5 (amended): the code reads only the power-law form of the pitch
calibration: its result is unchanged under any matrix-affine or scale/bias
entries, and it coincides with the spec's precedence exactly on pitch maps in
which neither of the two higher-precedence forms is populated. -/
theorem C5_pitch_power_only (pm : PitchMap) (x : List ℚ)
    (m : Option (List (List ℚ) × List ℚ)) (s : Option (List ℚ × List ℚ)) :
    applyPitchCalibration { pm with matrix := m, scaleBias := s } x =
        applyPitchCalibration pm x ∧
      (pm.matrix = none → pm.scaleBias = none →
        applyPitchCalibration pm x = applyPitchPrecedence pm x) := by
  rcases pm with ⟨m0, s0, p0⟩
  constructor
  · cases p0 with
    | none => rfl
    | some p => rfl
  · intro h1 h2
    simp only at h1 h2
    subst h1; subst h2
    cases p0 with
    | none => rfl
    | some p => rfl

/-- C5 witness: a pitch map whose only populated form is the power `p = 2`,
perturbed by a matrix entry. -/
theorem C5_pitch_power_only_witness :
    (applyPitchCalibration
        { (⟨none, none, some 2⟩ : PitchMap) with
            matrix := some ([[2]], [0]), scaleBias := none } [1/2] =
      applyPitchCalibration ⟨none, none, some 2⟩ [1/2]) ∧
      ((⟨none, none, some 2⟩ : PitchMap).matrix = none →
        (⟨none, none, some 2⟩ : PitchMap).scaleBias = none →
        applyPitchCalibration ⟨none, none, some 2⟩ [1/2] =
          applyPitchPrecedence ⟨none, none, some 2⟩ [1/2]) :=
  C5_pitch_power_only ⟨none, none, some 2⟩ [1/2] (some ([[2]], [0])) none

/-- C6: the confidence quantile map with `source = [0, 1]`,
`target = [0, 2]` sends the confidence value 0.5 to exactly 1.0. -/
theorem C6_quantile_map_half :
    applyConfidenceMapping [1/2] ⟨[0, 1], [0, 2]⟩ = [1] := by
  norm_num [applyConfidenceMapping, interpQ]
  simp

theorem length_applyAffineVec (values a b : List ℚ) :
    (applyAffineVec values a b).length = min (min values.length a.length) b.length := by
  simp [applyAffineVec]

theorem calibrateSegment_start (cal : Calibration) (seg : Segment) :
    (calibrateSegment cal seg).start = seg.start := by
  rcases cal with ⟨ct, cl, cc, cp⟩
  unfold calibrateSegment calPitch calConf calLoud calTimbre
  cases ct <;> cases cl <;> cases cc <;> cases cp <;> rfl

theorem calibrateSegment_duration (cal : Calibration) (seg : Segment) :
    (calibrateSegment cal seg).duration = seg.duration := by
  rcases cal with ⟨ct, cl, cc, cp⟩
  unfold calibrateSegment calPitch calConf calLoud calTimbre
  cases ct <;> cases cl <;> cases cc <;> cases cp <;> rfl

theorem length_applyPitchCalibration (pm : PitchMap) (x : List ℚ) :
    (applyPitchCalibration pm x).length = x.length := by
  rcases pm with ⟨pmm, pms, pmp⟩
  cases pmp with
  | none => rfl
  | some p => simp [applyPitchCalibration]

theorem calibrateSegment_pitches_length (cal : Calibration) (seg : Segment) :
    (calibrateSegment cal seg).pitches.length = seg.pitches.length := by
  rcases cal with ⟨ct, cl, cc, cp⟩
  have hpre : (calConf ⟨ct, cl, cc, cp⟩
      (calLoud ⟨ct, cl, cc, cp⟩ (calTimbre ⟨ct, cl, cc, cp⟩ seg))).pitches =
        seg.pitches := by
    unfold calConf calLoud calTimbre
    cases ct <;> cases cl <;> cases cc <;> rfl
  unfold calibrateSegment calPitch
  cases cp with
  | none => rw [hpre]
  | some pm =>
      show (applyPitchCalibration pm _).length = seg.pitches.length
      rw [length_applyPitchCalibration, hpre]

theorem calibrateSegment_timbre_length (cal : Calibration) (seg : Segment)
    (ha : ∀ tm, cal.timbre = some tm →
      (tm.a.getD (List.replicate 12 1)).length = seg.timbre.length ∧
      (tm.b.getD (List.replicate 12 0)).length = seg.timbre.length) :
    (calibrateSegment cal seg).timbre.length = seg.timbre.length := by
  rcases cal with ⟨ct, cl, cc, cp⟩
  have hrest : (calibrateSegment ⟨ct, cl, cc, cp⟩ seg).timbre =
      (calTimbre ⟨ct, cl, cc, cp⟩ seg).timbre := by
    unfold calibrateSegment calPitch calConf calLoud
    cases cl <;> cases cc <;> cases cp <;> rfl
  rw [hrest]
  cases ct with
  | none => rfl
  | some tm =>
      have h := ha tm rfl
      simp only [calTimbre]
      rw [length_applyAffineVec, h.1, h.2]
      omega

/-- C7: a confidence quantile map whose source or target array is missing or
empty leaves the confidence values unchanged (pass-through, no abort), and the
calibration pass changes only values, never the output's shape: the number of
segments, each segment's start and duration, its pitch-vector length, and
(whenever the timbre arrays — including their defaults — match the timbre
length) its timbre-vector length are all preserved. -/
theorem C7_calibration_recoverable (values src tgt : List ℚ) (cal : Calibration)
    (seg : Segment) (segs : List Segment)
    (hempty : src = [] ∨ tgt = [])
    (ha : ∀ tm, cal.timbre = some tm →
      (tm.a.getD (List.replicate 12 1)).length = seg.timbre.length ∧
      (tm.b.getD (List.replicate 12 0)).length = seg.timbre.length) :
    applyConfidenceMapping values ⟨src, tgt⟩ = values ∧
      (calibrateSegments (some cal) segs).length = segs.length ∧
      (calibrateSegment cal seg).start = seg.start ∧
      (calibrateSegment cal seg).duration = seg.duration ∧
      (calibrateSegment cal seg).pitches.length = seg.pitches.length ∧
      (calibrateSegment cal seg).timbre.length = seg.timbre.length := by
  refine ⟨?_, by simp [calibrateSegments], calibrateSegment_start cal seg,
    calibrateSegment_duration cal seg, calibrateSegment_pitches_length cal seg,
    calibrateSegment_timbre_length cal seg ha⟩
  unfold applyConfidenceMapping
  rcases hempty with h | h <;> simp [h]

/-- C7 witness: an empty source array with a concrete calibration (quantile
map only) and a concrete one-segment list. -/
theorem C7_calibration_recoverable_witness :
    applyConfidenceMapping [1/2] ⟨[], [0, 2]⟩ = [1/2] ∧
      (calibrateSegments
          (some ⟨none, none, some ⟨[], [0, 2]⟩, none⟩)
          [⟨0, 1, 1/2, 0, 0, 0, [0], [0]⟩]).length =
        ([⟨0, 1, 1/2, 0, 0, 0, [0], [0]⟩] : List Segment).length ∧
      (calibrateSegment ⟨none, none, some ⟨[], [0, 2]⟩, none⟩
          ⟨0, 1, 1/2, 0, 0, 0, [0], [0]⟩).start =
        (⟨0, 1, 1/2, 0, 0, 0, [0], [0]⟩ : Segment).start ∧
      (calibrateSegment ⟨none, none, some ⟨[], [0, 2]⟩, none⟩
          ⟨0, 1, 1/2, 0, 0, 0, [0], [0]⟩).duration =
        (⟨0, 1, 1/2, 0, 0, 0, [0], [0]⟩ : Segment).duration ∧
      (calibrateSegment ⟨none, none, some ⟨[], [0, 2]⟩, none⟩
          ⟨0, 1, 1/2, 0, 0, 0, [0], [0]⟩).pitches.length =
        (⟨0, 1, 1/2, 0, 0, 0, [0], [0]⟩ : Segment).pitches.length ∧
      (calibrateSegment ⟨none, none, some ⟨[], [0, 2]⟩, none⟩
          ⟨0, 1, 1/2, 0, 0, 0, [0], [0]⟩).timbre.length =
        (⟨0, 1, 1/2, 0, 0, 0, [0], [0]⟩ : Segment).timbre.length :=
  C7_calibration_recoverable [1/2] [] [0, 2]
    ⟨none, none, some ⟨[], [0, 2]⟩, none⟩
    ⟨0, 1, 1/2, 0, 0, 0, [0], [0]⟩
    [⟨0, 1, 1/2, 0, 0, 0, [0], [0]⟩]
    (Or.inl rfl)
    (by intro tm h; cases h)

theorem report_last_mono (r : ProgressReporter) (p : ℤ) (s : List Char) :
    r.last_progress ≤ (report r p s).1.last_progress := by
  unfold report
  by_cases h1 : r.hasCallback = false
  · rw [if_pos h1]
  · rw [if_neg h1]
    by_cases h2 : max r.last_progress p = r.last_progress ∧
        beatsWaitChars.isPrefixOf s = true
    · rw [if_pos h2]
    · rw [if_neg h2]
      exact le_max_left _ _

theorem report_emits_last (r : ProgressReporter) (p : ℤ) (s : List Char)
    (e : ℤ × List Char) (he : (report r p s).2 = some e) :
    e.1 = (report r p s).1.last_progress ∧ r.last_progress ≤ e.1 := by
  unfold report at he ⊢
  by_cases h1 : r.hasCallback = false
  · rw [if_pos h1] at he; cases he
  · rw [if_neg h1] at he ⊢
    by_cases h2 : max r.last_progress p = r.last_progress ∧
        beatsWaitChars.isPrefixOf s = true
    · rw [if_pos h2] at he; cases he
    · rw [if_neg h2] at he ⊢
      injection he with he'
      subst he'
      exact ⟨rfl, le_max_left _ _⟩

theorem runReporter_bounds (calls : List (ℤ × List Char)) :
    ∀ (r : ProgressReporter),
      List.Chain' (· ≤ ·) ((runReporter r calls).map Prod.fst) ∧
        ∀ e ∈ runReporter r calls, r.last_progress ≤ e.1 := by
  induction calls with
  | nil => intro r; exact ⟨List.chain'_nil, by intro e he; cases he⟩
  | cons c rest ih =>
      intro r
      rcases c with ⟨p, s⟩
      rcases ih (report r p s).1 with ⟨ihchain, ihbound⟩
      rcases hout : (report r p s).2 with _ | e
      · refine ⟨?_, ?_⟩
        · simpa [runReporter, hout] using ihchain
        · intro e he
          simp only [runReporter, hout, Option.toList_none, List.nil_append] at he
          exact le_trans (report_last_mono r p s) (ihbound e he)
      · rcases report_emits_last r p s e hout with ⟨helast, hege⟩
        refine ⟨?_, ?_⟩
        · simp only [runReporter, hout, Option.toList_some, List.singleton_append,
            List.map_cons]
          rw [List.chain'_cons']
          refine ⟨?_, ihchain⟩
          intro b hb
          have hbmem : b ∈ (runReporter (report r p s).1 rest).map Prod.fst :=
            List.mem_of_mem_head? hb
          rcases List.mem_map.mp hbmem with ⟨e2, he2, rfl⟩
          calc e.1 = (report r p s).1.last_progress := helast
            _ ≤ e2.1 := ihbound e2 he2
        · intro e2 he2
          simp only [runReporter, hout, Option.toList_some,
            List.singleton_append] at he2
          rcases List.mem_cons.mp he2 with rfl | he2'
          · exact hege
          · exact le_trans (report_last_mono r p s) (ihbound e2 he2')

/-- C8: across any sequence of `report` calls the percents delivered to the
callback are monotonically non-decreasing, and a repeated waiting-stage update
(stage starting with `"beats_wait"`) at an unchanged percent delivers
nothing. -/
theorem C8_progress_monotone (hasCb : Bool) (calls : List (ℤ × List Char)) :
    List.Chain' (· ≤ ·) ((runReporter (initReporter hasCb) calls).map Prod.fst) ∧
      ∀ (r : ProgressReporter) (p : ℤ) (s : List Char),
        max r.last_progress p = r.last_progress →
        beatsWaitChars.isPrefixOf s = true →
        (report r p s).2 = none := by
  refine ⟨(runReporter_bounds calls (initReporter hasCb)).1, ?_⟩
  intro r p s h1 h2
  unfold report
  by_cases hc : r.hasCallback = false
  · rw [if_pos hc]
  · rw [if_neg hc, if_pos ⟨h1, h2⟩]

/-- C8 witness: a waiting-stage repeat at percent 10 with `last_progress`
already 10 is suppressed. -/
theorem C8_progress_monotone_witness :
    (report ⟨true, 10⟩ 10
        ['b', 'e', 'a', 't', 's', '_', 'w', 'a', 'i', 't', '2']).2 = none :=
  (C8_progress_monotone true [(5, ['d']), (10, ['b'])]).2
    ⟨true, 10⟩ 10 ['b', 'e', 'a', 't', 's', '_', 'w', 'a', 'i', 't', '2']
    (by norm_num) (by decide)

/-- C9 (counterexample): with both times `-5`, sample rate 1 and hop length 1,
`frame_slice` returns `(0, -4)`: the clamped start 0 is not below the end
`-4`, so the selected frame window is empty — the claim fails for negative
times. -/
theorem C9_frame_slice_cex :
    frame_slice (-5) (-5) 1 1 = (0, -4) ∧ ¬ ((0 : ℤ) < -4) := by
  constructor
  · have hceil : ⌈(-5 : ℚ)⌉ = -5 := by
      rw [show ((-5 : ℚ)) = ((-5 : ℤ) : ℚ) by norm_num, Int.ceil_intCast]
    unfold frame_slice
    norm_num [hceil]
  · decide

/-- C9 (amended): whenever `time_start ≥ 0` (with positive sample rate and hop
length), the returned pair satisfies `0 ≤ start` and `start < end`, whatever
`time_end` is; the `0 ≤ start` half holds unconditionally. -/
theorem C9_frame_slice (ts te : ℚ) (sr hop : ℤ)
    (hts : 0 ≤ ts) (hsr : 0 < sr) (hhop : 0 < hop) :
    0 ≤ (frame_slice ts te sr hop).1 ∧
      (frame_slice ts te sr hop).1 < (frame_slice ts te sr hop).2 := by
  unfold frame_slice
  refine ⟨le_max_left 0 _, ?_⟩
  have hsrq : (0 : ℚ) < (sr : ℚ) := by exact_mod_cast hsr
  have hhopq : (0 : ℚ) < (hop : ℚ) := by exact_mod_cast hhop
  have h0 : (0 : ℚ) ≤ ts * sr / hop := by positivity
  have hfloor : 0 ≤ ⌊ts * sr / hop⌋ := Int.floor_nonneg.mpr h0
  simp only [max_eq_right hfloor]
  exact lt_of_lt_of_le (lt_add_one _) (le_max_left _ _)

/-- C9 witness: `time_start = 0`, `time_end = 0`, `sr = 1`, `hop = 1`. -/
theorem C9_frame_slice_witness :
    0 ≤ (frame_slice 0 0 1 1).1 ∧ (frame_slice 0 0 1 1).1 < (frame_slice 0 0 1 1).2 :=
  C9_frame_slice 0 0 1 1 (le_refl 0) (by decide) (by decide)

mutual

theorem eraseNums_sanitize : ∀ (parent : Option (List Char)) (v : JVal),
    eraseNumsJ (sanitizeJ parent v) = eraseNumsJ v
  | parent, .num q => by
      by_cases h : ¬(parent = some pitchesKey ∨ parent = some timbreKey) ∧
          |q| < 1 / 10000
      · simp only [sanitizeJ, if_pos h, eraseNumsJ]
      · simp only [sanitizeJ, if_neg h]
  | parent, .arr items => by
      simp only [sanitizeJ, eraseNumsJ]
      rw [eraseNums_sanitizeList parent items]
  | parent, .obj fields => by
      simp only [sanitizeJ, eraseNumsJ]
      rw [eraseNums_sanitizeFields fields]
  | _, .int n => rfl
  | _, .str s => rfl
  | _, .bool b => rfl
  | _, .null => rfl

theorem eraseNums_sanitizeList : ∀ (parent : Option (List Char)) (l : List JVal),
    eraseNumsListJ (sanitizeListJ parent l) = eraseNumsListJ l
  | _, [] => rfl
  | parent, v :: rest => by
      simp only [sanitizeListJ, eraseNumsListJ]
      rw [eraseNums_sanitize parent v, eraseNums_sanitizeList parent rest]

theorem eraseNums_sanitizeFields : ∀ (l : List (List Char × JVal)),
    eraseNumsFieldsJ (sanitizeFieldsJ l) = eraseNumsFieldsJ l
  | [] => rfl
  | (k, v) :: rest => by
      simp only [sanitizeFieldsJ, eraseNumsFieldsJ]
      rw [eraseNums_sanitize (some k) v, eraseNums_sanitizeFields rest]

end

mutual

theorem floats_sanitize : ∀ (parent : Option (List Char)) (v : JVal),
    floatsJ parent (sanitizeJ parent v) =
      (floatsJ parent v).map (fun pq => sanitizeRule pq.1 pq.2)
  | parent, .num q => by
      by_cases h : ¬(parent = some pitchesKey ∨ parent = some timbreKey) ∧
          |q| < 1 / 10000
      · simp only [sanitizeJ, if_pos h, floatsJ, List.map_cons, List.map_nil,
          sanitizeRule]
      · simp only [sanitizeJ, if_neg h, floatsJ, List.map_cons, List.map_nil,
          sanitizeRule]
  | parent, .arr items => by
      simp only [sanitizeJ, floatsJ]
      rw [floats_sanitizeList parent items]
  | parent, .obj fields => by
      simp only [sanitizeJ, floatsJ]
      rw [floats_sanitizeFields fields]
  | _, .int n => rfl
  | _, .str s => rfl
  | _, .bool b => rfl
  | _, .null => rfl

theorem floats_sanitizeList : ∀ (parent : Option (List Char)) (l : List JVal),
    floatsListJ parent (sanitizeListJ parent l) =
      (floatsListJ parent l).map (fun pq => sanitizeRule pq.1 pq.2)
  | _, [] => rfl
  | parent, v :: rest => by
      simp only [sanitizeListJ, floatsListJ, List.map_append]
      rw [floats_sanitize parent v, floats_sanitizeList parent rest]

theorem floats_sanitizeFields : ∀ (l : List (List Char × JVal)),
    floatsFieldsJ (sanitizeFieldsJ l) =
      (floatsFieldsJ l).map (fun pq => sanitizeRule pq.1 pq.2)
  | [] => rfl
  | (k, v) :: rest => by
      simp only [sanitizeFieldsJ, floatsFieldsJ, List.map_append]
      rw [floats_sanitize (some k) v, floats_sanitizeFields rest]

end

/-- C10 (counterexample): in the document `{"pitches": {"a": 1e-5}}` the float
lies (transitively) under a `"pitches"` key, yet `_sanitize_small_values`
zeroes it, because the inner dict resets the parent key to `"a"`; the claim's
reading (any enclosing `pitches`/`timbre` key exempts, `specSanitizeJ`) leaves
it unchanged. -/
theorem C10_sanitize_cex :
    sanitizeJ none (.obj [(pitchesKey, .obj [(['a'], .num (1/100000))])]) =
        .obj [(pitchesKey, .obj [(['a'], .num 0)])] ∧
      specSanitizeJ false (.obj [(pitchesKey, .obj [(['a'], .num (1/100000))])]) =
        .obj [(pitchesKey, .obj [(['a'], .num (1/100000))])] ∧
      (1 : ℚ)/100000 ≠ 0 := by
  have hk : ¬(some (['a'] : List Char) = some pitchesKey ∨
      some (['a'] : List Char) = some timbreKey) := by decide
  have hq : |(1 : ℚ)/100000| < 1 / 10000 := by
    rw [abs_of_pos (by norm_num)]
    norm_num
  refine ⟨?_, ?_, by norm_num⟩
  · simp only [sanitizeJ, sanitizeFieldsJ]
    rw [if_pos ⟨hk, hq⟩]
  · have hobj : ∀ (e : Bool) (fs : List (List Char × JVal)),
        specSanitizeJ e (.obj fs) = .obj (specSanitizeFieldsJ e fs) := by
      intro e fs; simp only [specSanitizeJ]
    have hcons : ∀ (e : Bool) (k : List Char) (v : JVal)
        (rest : List (List Char × JVal)),
        specSanitizeFieldsJ e ((k, v) :: rest) =
          (k, specSanitizeJ
            (e || decide (k = pitchesKey) || decide (k = timbreKey)) v) ::
            specSanitizeFieldsJ e rest := by
      intro e k v rest; simp only [specSanitizeFieldsJ]
    have hnil : ∀ e : Bool, specSanitizeFieldsJ e [] = [] := by
      intro e; simp only [specSanitizeFieldsJ]
    have hnum : ∀ (e : Bool) (q : ℚ), specSanitizeJ e (.num q) =
        if e = false ∧ |q| < 1 / 10000 then .num 0 else .num q := by
      intro e q; simp only [specSanitizeJ]
    rw [hobj, hcons, hnil,
      show (false || decide (pitchesKey = pitchesKey) ||
        decide (pitchesKey = timbreKey)) = true by decide]
    rw [hobj, hcons, hnil,
      show (true || decide ((['a'] : List Char) = pitchesKey) ||
        decide ((['a'] : List Char) = timbreKey)) = true by decide]
    rw [hnum, if_neg (by simp)]

/-- C10 (amended): `_sanitize_small_values` preserves the document's structure
and every non-float leaf, and transforms exactly the float leaves, where the
exemption is decided by the key of the *nearest* enclosing dict entry (lists
are transparent, a nested dict resets the key): a float whose nearest key is
`"pitches"` or `"timbre"` is returned unchanged, any other float below `1e-4`
in absolute value becomes 0, and all remaining floats are unchanged. -/
theorem C10_sanitize_characterization (parent : Option (List Char)) (v : JVal) :
    eraseNumsJ (sanitizeJ parent v) = eraseNumsJ v ∧
      floatsJ parent (sanitizeJ parent v) =
        (floatsJ parent v).map (fun pq => sanitizeRule pq.1 pq.2) :=
  ⟨eraseNums_sanitize parent v, floats_sanitize parent v⟩

end Floppa

